import Mathlib

/-!  Verification development for the Elsa array-mapped trie (src/bitset.rs, src/trie.rs).

The Rust source is shallowly embedded: `u32` bitsets and `usize` keys become `Nat`
(with explicit wrap-around where the machine type wraps), `Vec`/slices become `List`,
in-place mutation (`&mut self`) becomes explicit state passing, and the panicking
slice index `nodes[idx]` becomes a guarded list access whose out-of-range branch is
marked unreachable (claim C10 settles when it is reachable).
-/

/-- Embeds `Index32::convert` (bitset.rs line 17): `(index >> (depth * 5)) & 0b11111`.
`Index32` itself is a newtype over `usize`; it is embedded as a plain `Nat`. -/
def Index32.convert (index depth : Nat) : Nat :=
  (index >>> (depth * 5)) &&& 31

/-- Embeds `Index32::max_with` (bitset.rs line 21): `Index32::convert(usize::MAX, depth)`
with `usize::MAX = 2^64 - 1` (the build targets a 64-bit `usize`; see `MAX_DEPTH`). -/
def Index32.maxWith (depth : Nat) : Nat :=
  Index32.convert (2 ^ 64 - 1) depth

/-- Embeds `Bitset::get` (bitset.rs line 42): `self.0 & W1 << index.num() != W0`.
`Wrapping<u32>` shifts mask their shift amount by 31, hence the `% 32`
(every call site of the source passes an `Index32`, which is below 32 anyway). -/
def Bitset.get (b index : Nat) : Bool :=
  b &&& (1 <<< (index % 32)) != 0

/-- Embeds `Bitset::set` (bitset.rs line 46): `self.0 |= W1 << index.num()`, returning
the new bitset; the returned previous value of the bit is never used by trie.rs. -/
def Bitset.set (b index : Nat) : Nat :=
  b ||| (1 <<< (index % 32))

/-- Embeds `u32::count_ones`: the number of set bits among bit positions 0..31. -/
def count_ones (b : Nat) : Nat :=
  ((Finset.range 32).filter (fun i => b.testBit i)).card

/-- Embeds `Bitset::packed_index` (bitset.rs lines 61-70).  The source writes
`!(W1 << (index + 1) - 1)`; Rust parses `+`/`-` tighter than `<<`, so the mask is
`!(W1 << ((index + 1) - 1))`, i.e. the complement of the single bit `index`
(`^^^ (2^32 - 1)` is the 32-bit complement). -/
def Bitset.packed_index (b index : Nat) : Option Nat :=
  if !Bitset.get b index then none
  else
    let leadings_mask := (2 ^ 32 - 1) ^^^ (1 <<< ((index + 1 - 1) % 32))
    some (count_ones (b &&& leadings_mask))

/-- Embeds `u32::leading_zeros` restricted to 32-bit values. -/
def leading_zeros (x : Nat) : Nat :=
  ((List.range 32).takeWhile (fun i => !x.testBit (31 - i))).length

/-- Embeds `BitsetIter::next` (bitset.rs lines 83-91).  The iterator state is the
wrapped bitset; the source never modifies `self.0`, so the returned state equals the
input state.  The yielded item is `Index32(count)` where `count` is the number of
leading zero bits. -/
def BitsetIter.next (b : Nat) : Option (Nat × Nat) :=
  let count := leading_zeros b
  if count = 32 then none else some (count, b)

/-- Embeds `MAX_DEPTH` (trie.rs line 11): `(size_of::<usize>() - 1) / 5 + 1` with
`size_of::<usize>() = 8`, i.e. the depth bound is derived from the byte width of
`usize` and evaluates to 2. -/
def MAX_DEPTH : Nat := (8 - 1) / 5 + 1

/-- Embeds `Node<T>` (trie.rs lines 30-39): `One { index, value }` or
`More { bitset, nodes }` (the `Arc<[Node<T>]>` becomes a `List`). -/
inductive Node (T : Type) where
  | one (index : Nat) (value : T)
  | more (bitset : Nat) (nodes : List (Node T))

/-- Embeds `NodeMut<T>` (trie.rs lines 42-46): `Empty`, `Imut(Node<T>)` or
`MoreMut(Vec<(Index32, NodeMut<T>)>)`. -/
inductive NodeMut (T : Type) where
  | empty
  | imut (node : Node T)
  | moreMut (pairs : List (Nat × NodeMut T))

mutual

/-- Embeds `Node::len` (trie.rs lines 203-208): 1 for a leaf, sum over children. -/
def Node.len {T : Type} : Node T → Nat
  | .one _ _ => 1
  | .more _ nodes => Node.lenList nodes

/-- The `nodes.iter().map(len).sum()` part of `Node::len`. -/
def Node.lenList {T : Type} : List (Node T) → Nat
  | [] => 0
  | n :: rest => Node.len n + Node.lenList rest

end

mutual

/-- Embeds `Node::get` (trie.rs lines 210-220).  Note the source's `One` arm returns
`Some(value.clone())` without comparing the stored `index` with the query. -/
def Node.get {T : Type} : Node T → Nat → Option T
  | .one _ value, _ => some value
  | .more bitset nodes, query =>
    match Bitset.packed_index bitset (query % 32) with
    | none => none
    | some idx => Node.getList nodes idx (query / 32)

/-- The `nodes[idx].get(query / 32)` part of `Node::get`; an out-of-range `idx`
panics in the source (unreachable on reachable tries, see claim C10). -/
def Node.getList {T : Type} : List (Node T) → Nat → Nat → Option T
  | [], _, _ => none
  | n :: _, 0, q => Node.get n q
  | _ :: rest, i + 1, q => Node.getList rest i q

end

/-- Embeds `make_mut` (trie.rs lines 272-277): `bitset.iter().zip(nodes)` maps each
child to `(idx, Imut(child))`.  `BitsetIter::next` never changes its state, so the
zip pairs every child with the same index `leading_zeros bitset` when the iterator
is non-empty, and produces nothing when `leading_zeros bitset = 32`. -/
def make_mut {T : Type} (bitset : Nat) (nodes : List (Node T)) : List (Nat × NodeMut T) :=
  if leading_zeros bitset = 32 then []
  else nodes.map (fun n => (leading_zeros bitset, NodeMut.imut n))

/-- Embeds the interval step of `slice::binary_search_by_key`: compare the key at
`mid = left + (right - left) / 2`, then narrow to the half that can contain `key`.
`Sum.inl` is `Ok(mid)`, `Sum.inr` is `Err(left)`. -/
def bsGo {A : Type} (l : List (Nat × A)) (key : Nat) (left right : Nat) : Nat ⊕ Nat :=
  if _h : left < right then
    match l.get? (left + (right - left) / 2) with
    | none => Sum.inr left
    | some (k, _) =>
      if k < key then bsGo l key (left + (right - left) / 2 + 1) right
      else if key < k then bsGo l key left (left + (right - left) / 2)
      else Sum.inl (left + (right - left) / 2)
  else Sum.inr left
termination_by right - left
decreasing_by
  all_goals omega

/-- Embeds `pairs.binary_search_by_key(&key, |p| p.0)` (trie.rs lines 326 and 377). -/
def rustBinarySearch {A : Type} (l : List (Nat × A)) (key : Nat) : Nat ⊕ Nat :=
  bsGo l key 0 l.length

/-- Embeds `Vec::insert(idx, x)`: insert `x` so that it ends up at position `idx`. -/
def vecInsert {A : Type} (l : List A) (idx : Nat) (x : A) : List A :=
  l.take idx ++ x :: l.drop idx

/-- Embeds `NodeMut::insert` (trie.rs lines 288-349).  The `&mut self` mutation is
state-passed: the result pairs the returned `Option<T>` with the updated node.
In the `Imut(One)` split arm the source swaps the two pairs when the full keys
satisfy `index > new_index` (not when the digits do).  In the `MoreMut` arm,
`Ok(idx)` of the binary search is always in range in the source; the impossible
`none` branch of the guarded list access is the unreachable slice-index panic. -/
def NodeMut.insert {T : Type} (self : NodeMut T) (depth new_index : Nat)
    (new_value : T) : Option T × NodeMut T :=
  if _h : depth > MAX_DEPTH then (none, self)
  else
    match self with
    | .empty => (none, .imut (.one new_index new_value))
    | .imut (.one index value) =>
      if index = new_index then (some value, .imut (.one index new_value))
      else
        let p0 := (Index32.convert index depth, NodeMut.imut (.one index value))
        let p1 := (Index32.convert new_index depth, NodeMut.imut (.one new_index new_value))
        (none, .moreMut (if index > new_index then [p1, p0] else [p0, p1]))
    | .imut (.more bitset nodes) =>
      (NodeMut.moreMut (make_mut bitset nodes)).insert depth new_index new_value
    | .moreMut pairs =>
      match rustBinarySearch pairs (Index32.convert new_index depth) with
      | .inl idx =>
        match _hp : pairs.get? idx with
        | some (k, sub) =>
          let r := sub.insert (depth + 1) new_index new_value
          (r.1, .moreMut (pairs.set idx (k, r.2)))
        | none => (none, .moreMut pairs)
      | .inr idx =>
        (none, .moreMut (vecInsert pairs idx
          (Index32.convert new_index depth, .imut (.one new_index new_value))))
termination_by (MAX_DEPTH + 2 - depth, match self with | .moreMut _ => 0 | _ => 1)
decreasing_by
  · apply Prod.Lex.right
    omega
  · apply Prod.Lex.left
    omega

/-- The tail of the `MoreMut` arm of `NodeMut::remove` (trie.rs lines 388-396):
after the binary-search step left the given pair list, collapse the node to the
leaf when exactly one pair remains and that pair holds `Imut(One)`. -/
def NodeMut.removeCollapse {T : Type} (step : Option T × List (Nat × NodeMut T)) :
    Option T × NodeMut T :=
  match step.2 with
  | [(_, NodeMut.imut (Node.one index value))] => (step.1, .imut (.one index value))
  | _ => (step.1, .moreMut step.2)

/-- Embeds `NodeMut::remove` (trie.rs lines 351-405), state-passed like `insert`.
After the binary search the source drops the pair when its subtree became `Empty`,
and then (on every path through the `MoreMut` arm, found or not) collapses the node
to the leaf when exactly one pair remains and that pair holds `Imut(One)`. -/
def NodeMut.remove {T : Type} (self : NodeMut T) (depth del_index : Nat) :
    Option T × NodeMut T :=
  if _h : depth > MAX_DEPTH then (none, self)
  else
    match self with
    | .empty => (none, .empty)
    | .imut (.one index value) =>
      if index = del_index then (some value, .empty)
      else (none, .imut (.one index value))
    | .imut (.more bitset nodes) =>
      if Bitset.get bitset (Index32.convert del_index depth) then
        (NodeMut.moreMut (make_mut bitset nodes)).remove depth del_index
      else (none, .imut (.more bitset nodes))
    | .moreMut pairs =>
      NodeMut.removeCollapse
        (match rustBinarySearch pairs (Index32.convert del_index depth) with
        | .inr _ => (none, pairs)
        | .inl idx =>
          match _hp : pairs.get? idx with
          | none => (none, pairs)
          | some (k, sub) =>
            let r := sub.remove (depth + 1) del_index
            match r.2 with
            | .empty => (r.1, (pairs.set idx (k, r.2)).eraseIdx idx)
            | _ => (r.1, pairs.set idx (k, r.2)))
termination_by (MAX_DEPTH + 2 - depth, match self with | .moreMut _ => 0 | _ => 1)
decreasing_by
  · apply Prod.Lex.right
    omega
  · apply Prod.Lex.left
    omega

mutual

/-- Embeds `NodeMut::into_node` (trie.rs lines 407-428): `Empty` freezes to `None`,
`Imut` is passed through unchanged, `MoreMut` folds its pairs into a bitmap and a
dense child array via `into_nodeFold`. -/
def NodeMut.into_node {T : Type} : NodeMut T → Option (Node T)
  | .empty => none
  | .imut node => some node
  | .moreMut pairs => some (NodeMut.into_nodeFold pairs 0 [])

/-- The `for (idx32, node_mut) in pairs` loop of `NodeMut::into_node`: each pair
whose subtree freezes to `Some(node)` sets its bit and pushes the node. -/
def NodeMut.into_nodeFold {T : Type} :
    List (Nat × NodeMut T) → Nat → List (Node T) → Node T
  | [], bitset, nodes => .more bitset nodes
  | (idx32, node_mut) :: rest, bitset, nodes =>
    match NodeMut.into_node node_mut with
    | some node => NodeMut.into_nodeFold rest (Bitset.set bitset idx32) (nodes ++ [node])
    | none => NodeMut.into_nodeFold rest bitset nodes

end

mutual

/-- Embeds `Node::next_empty` (trie.rs lines 222-260).  The `(start..).take_while`
scan is `Node.nextEmptyScan`.  For any depth that passes the `depth > MAX_DEPTH`
guard the scan stops within `2 ^ (5 * (depth + 1))` steps (the guard of the
take_while fails no later than at the next key whose digit at this depth is 31),
so the fuel passed to the scan never runs out. -/
def Node.next_empty {T : Type} : Node T → Nat → Nat → Option Nat
  | node, depth, start =>
    if depth > MAX_DEPTH then none
    else
      match node with
      | .one index _ =>
        if index ≠ start then some start
        else if Index32.convert start depth = Index32.maxWith depth then none
        else some (start + 1)
      | .more bitset nodes =>
        if !Bitset.get bitset (Index32.convert start depth) then some start
        else Node.nextEmptyScan bitset nodes depth (2 ^ (5 * (depth + 1))) start

/-- The `for start in start_iter` loop of `Node::next_empty` (trie.rs lines 246-254):
at each key `idx` in turn, while the digit of `idx` stays below the depth's maximal
digit, a missing child means `idx` is free, otherwise the child is searched and the
scan moves to `idx + 1` on failure. -/
def Node.nextEmptyScan {T : Type} :
    Nat → List (Node T) → Nat → Nat → Nat → Option Nat
  | _, _, _, 0, _ => none
  | bitset, nodes, depth, fuel + 1, idx =>
    if Index32.convert idx depth < Index32.maxWith depth then
      match Bitset.packed_index bitset (Index32.convert idx depth) with
      | none => some idx
      | some i =>
        match Node.nextEmptyChild nodes i (depth + 1) idx with
        | some res => some res
        | none => Node.nextEmptyScan bitset nodes depth fuel (idx + 1)
    else none

/-- The `nodes[idx].next_empty(depth + 1, start)` part of the scan; an out-of-range
index panics in the source (unreachable on reachable tries, see claim C10). -/
def Node.nextEmptyChild {T : Type} : List (Node T) → Nat → Nat → Nat → Option Nat
  | [], _, _, _ => none
  | n :: _, 0, depth, start => Node.next_empty n depth start
  | _ :: rest, i + 1, depth, start => Node.nextEmptyChild rest i depth start

end

/-- Embeds `Trie<T>` (trie.rs lines 18-21): an optional root and a cached length. -/
structure Trie (T : Type) where
  root : Option (Node T)
  length : Nat

/-- Embeds `TrieMut<T>` (trie.rs lines 25-27). -/
structure TrieMut (T : Type) where
  root : NodeMut T

/-- Embeds `Trie::new` (trie.rs lines 51-56). -/
def Trie.new {T : Type} : Trie T := ⟨none, 0⟩

/-- Embeds `Trie::len` (trie.rs lines 58-60). -/
def Trie.len {T : Type} (self : Trie T) : Nat := self.length

/-- Embeds `Trie::get` (trie.rs lines 62-64). -/
def Trie.get {T : Type} (self : Trie T) (index : Nat) : Option T :=
  self.root.bind (fun node => node.get index)

/-- Embeds `Trie::to_mut` (trie.rs lines 66-73); `node.clone()` is the identity in
the pure embedding. -/
def Trie.to_mut {T : Type} (self : Trie T) : TrieMut T :=
  ⟨match self.root with
   | some node => NodeMut.imut node
   | none => NodeMut.empty⟩

mutual

/-- Embeds `NodeMut::len` (trie.rs lines 280-286), used by `TrieMut::len`. -/
def NodeMut.len {T : Type} : NodeMut T → Nat
  | .empty => 0
  | .imut node => node.len
  | .moreMut pairs => NodeMut.lenList pairs

/-- The `pairs.iter().map(len).sum()` part of `NodeMut::len` (trie.rs line 284). -/
def NodeMut.lenList {T : Type} : List (Nat × NodeMut T) → Nat
  | [] => 0
  | (_, n) :: rest => NodeMut.len n + NodeMut.lenList rest

end

/-- Embeds `TrieMut::insert` (trie.rs lines 167-169), state-passed. -/
def TrieMut.insert {T : Type} (self : TrieMut T) (index : Nat) (value : T) :
    Option T × TrieMut T :=
  let r := self.root.insert 0 index value
  (r.1, ⟨r.2⟩)

/-- Embeds `TrieMut::remove` (trie.rs lines 171-173), state-passed. -/
def TrieMut.remove {T : Type} (self : TrieMut T) (index : Nat) :
    Option T × TrieMut T :=
  let r := self.root.remove 0 index
  (r.1, ⟨r.2⟩)

/-- Embeds `TrieMut::into_trie` (trie.rs lines 175-183): freeze the root and
recompute the cached length as the frozen root's leaf count. -/
def TrieMut.into_trie {T : Type} (self : TrieMut T) : Trie T :=
  let root := self.root.into_node
  ⟨root, match root with
         | none => 0
         | some node => node.len⟩

/-- Embeds `Trie::update` (trie.rs lines 93-97). -/
def Trie.update {T : Type} (self : Trie T) (index : Nat) (value : T) : Trie T :=
  ((self.to_mut.insert index value).2).into_trie

/-- Embeds `Trie::update_all` (trie.rs lines 75-91): an empty batch returns a clone
of `self`; otherwise one `TrieMut` absorbs every insert and is frozen once. -/
def Trie.update_all {T : Type} (self : Trie T) : List (Nat × T) → Trie T
  | [] => self
  | (index, value) :: rest =>
    let tm := (self.to_mut.insert index value).2
    let tm := rest.foldl (fun tm p => (tm.insert p.1 p.2).2) tm
    tm.into_trie

/-- Embeds `Trie::remove` (trie.rs lines 117-121). -/
def Trie.remove {T : Type} (self : Trie T) (index : Nat) : Trie T :=
  ((self.to_mut.remove index).2).into_trie

/-- Embeds `Trie::remove_all` (trie.rs lines 99-115). -/
def Trie.remove_all {T : Type} (self : Trie T) : List Nat → Trie T
  | [] => self
  | index :: rest =>
    let tm := (self.to_mut.remove index).2
    let tm := rest.foldl (fun tm i => (tm.remove i).2) tm
    tm.into_trie

/-- Embeds `Trie::next_empty` (trie.rs lines 123-129): no root means `start` itself
is free; otherwise search from `start` and, on failure, again from 0. -/
def Trie.next_empty {T : Type} (self : Trie T) (start : Nat) : Option Nat :=
  match self.root with
  | none => some start
  | some node => (node.next_empty 0 start).orElse (fun _ => node.next_empty 0 0)

/-- Well-formedness of a frozen node: at every `More` node the bitmap's popcount is
at most the child count (so a `packed_index` result is a valid child index, claim
C10), recursively.  Every node the public operations build satisfies this. -/
inductive NodeWF {T : Type} : Node T → Prop where
  | one (index : Nat) (value : T) : NodeWF (.one index value)
  | more (bitset : Nat) (nodes : List (Node T)) :
      count_ones bitset ≤ nodes.length →
      (∀ n ∈ nodes, NodeWF n) → NodeWF (.more bitset nodes)

/-- Well-formedness of a staging node: every frozen subnode is well formed. -/
inductive NodeMutWF {T : Type} : NodeMut T → Prop where
  | empty : NodeMutWF .empty
  | imut (node : Node T) : NodeWF node → NodeMutWF (.imut node)
  | moreMut (pairs : List (Nat × NodeMut T)) :
      (∀ p ∈ pairs, NodeMutWF p.2) → NodeMutWF (.moreMut pairs)

/-- Well-formedness of a trie: its root, when present, is well formed. -/
def TrieWF {T : Type} (t : Trie T) : Prop :=
  ∀ n, t.root = some n → NodeWF n

/-- One edit of a staging session: the public `TrieMut::insert` or `TrieMut::remove`. -/
inductive Edit (T : Type) where
  | ins (index : Nat) (value : T)
  | del (index : Nat)

/-- Applies one staged edit through the public `TrieMut` operations. -/
def TrieMut.applyEdit {T : Type} (tm : TrieMut T) : Edit T → TrieMut T
  | .ins index value => (tm.insert index value).2
  | .del index => (tm.remove index).2

/-- The tries reachable from `Trie::new` through the public operations, including
an arbitrary staged batch (`to_mut`, any sequence of `TrieMut::insert` and
`TrieMut::remove`, then `into_trie`). -/
inductive Reachable {T : Type} : Trie T → Prop where
  | new : Reachable Trie.new
  | update {t : Trie T} (index : Nat) (value : T) :
      Reachable t → Reachable (t.update index value)
  | update_all {t : Trie T} (entries : List (Nat × T)) :
      Reachable t → Reachable (t.update_all entries)
  | remove {t : Trie T} (index : Nat) :
      Reachable t → Reachable (t.remove index)
  | remove_all {t : Trie T} (indices : List Nat) :
      Reachable t → Reachable (t.remove_all indices)
  | commit {t : Trie T} (edits : List (Edit T)) :
      Reachable t → Reachable ((edits.foldl TrieMut.applyEdit t.to_mut).into_trie)

/-- The subtree relation on frozen nodes: `Subtree s n` holds when `s` occurs in
the tree rooted at `n`. -/
inductive Subtree {T : Type} : Node T → Node T → Prop where
  | refl (n : Node T) : Subtree n n
  | child {s c : Node T} {bitset : Nat} {nodes : List (Node T)} :
      c ∈ nodes → Subtree s c → Subtree s (.more bitset nodes)

/-- A successful rank query counts a strict subset of the bitmap's set bits: the
mask `!(W1 << ((index + 1) - 1))` clears bit `index % 32`, which `get` guarantees
is set, so the counted bit set misses at least that one bit. -/
theorem packed_index_lt_count {b d i : Nat}
    (h : Bitset.packed_index b d = some i) : i < count_ones b := by
  rw [Bitset.packed_index] at h
  cases hget : Bitset.get b d with
  | false =>
    rw [hget] at h
    simp at h
  | true =>
    rw [hget] at h
    simp only [Bool.not_true, Bool.false_eq_true, if_false, Option.some.injEq] at h
    have hbit : b.testBit (d % 32) = true := by
      rw [Bitset.get, Nat.one_shiftLeft] at hget
      rcases Bool.eq_false_or_eq_true (b.testBit (d % 32)) with ht | hf
      · exact ht
      · exfalso
        simp [Nat.and_two_pow, hf] at hget
    rw [← h]
    apply Finset.card_lt_card
    rw [Finset.ssubset_iff_of_subset]
    · refine ⟨d % 32, ?_, ?_⟩
      · simp only [Finset.mem_filter, Finset.mem_range]
        exact ⟨Nat.mod_lt d (by norm_num), hbit⟩
      · simp only [Finset.mem_filter, Finset.mem_range, not_and]
        intro _
        have h1 : (d + 1 - 1) % 32 = d % 32 := by omega
        rw [Nat.testBit_and, Nat.one_shiftLeft, h1, Nat.testBit_xor,
          Nat.testBit_two_pow_sub_one, Nat.testBit_two_pow]
        simp [Nat.mod_lt d (show 0 < 32 from by norm_num), hbit]
    · intro j hj
      simp only [Finset.mem_filter, Finset.mem_range] at hj ⊢
      refine ⟨hj.1, ?_⟩
      have := hj.2
      rw [Nat.testBit_and] at this
      exact (Bool.and_eq_true _ _ |>.mp this).1

/-- Setting one bit grows the popcount by at most one. -/
theorem count_ones_set_le (b i : Nat) :
    count_ones (Bitset.set b i) ≤ count_ones b + 1 := by
  rw [Bitset.set, Nat.one_shiftLeft, count_ones, count_ones]
  have hsub : (Finset.range 32).filter (fun j => (b ||| 2 ^ (i % 32)).testBit j) ⊆
      ((Finset.range 32).filter (fun j => b.testBit j)) ∪ {i % 32} := by
    intro j hj
    simp only [Finset.mem_filter, Finset.mem_range, Nat.testBit_or] at hj
    rcases Bool.or_eq_true _ _ |>.mp hj.2 with hb | hp
    · exact Finset.mem_union_left _ (Finset.mem_filter.mpr ⟨Finset.mem_range.mpr hj.1, hb⟩)
    · apply Finset.mem_union_right
      rw [Nat.testBit_two_pow] at hp
      simp only [Finset.mem_singleton]
      exact (of_decide_eq_true hp).symm
  calc ((Finset.range 32).filter (fun j => (b ||| 2 ^ (i % 32)).testBit j)).card
      ≤ (((Finset.range 32).filter (fun j => b.testBit j)) ∪ {i % 32}).card :=
        Finset.card_le_card hsub
    _ ≤ ((Finset.range 32).filter (fun j => b.testBit j)).card + 1 := by
        have := Finset.card_union_le ((Finset.range 32).filter (fun j => b.testBit j))
          ({i % 32} : Finset Nat)
        simpa using this

/-- Membership in the list produced by `Vec::insert`. -/
theorem mem_vecInsert {A : Type} {l : List A} {idx : Nat} {x a : A}
    (h : a ∈ vecInsert l idx x) : a = x ∨ a ∈ l := by
  rw [vecInsert] at h
  rcases List.mem_append.mp h with hl | hr
  · exact Or.inr (List.take_subset idx l hl)
  · rcases List.mem_cons.mp hr with he | hd
    · exact Or.inl he
    · exact Or.inr (List.drop_subset idx l hd)

/-- Thawing a well-formed `More` node yields well-formed staging pairs: every pair
produced by `make_mut` wraps one of the original children in `Imut`. -/
theorem make_mut_wf {T : Type} {bitset : Nat} {nodes : List (Node T)}
    (h : ∀ n ∈ nodes, NodeWF n) :
    ∀ p ∈ make_mut bitset nodes, NodeMutWF p.2 := by
  intro p hp
  rw [make_mut] at hp
  split at hp
  · simp at hp
  · rcases List.mem_map.mp hp with ⟨n, hn, rfl⟩
    exact NodeMutWF.imut n (h n hn)

/-- The freeze fold preserves well-formedness: each processed pair sets one bit
(popcount grows by at most one) and pushes one frozen child. -/
theorem into_nodeFold_wf {T : Type} :
    ∀ (pairs : List (Nat × NodeMut T)),
    (∀ p ∈ pairs, ∀ n, (p.2).into_node = some n → NodeWF n) →
    ∀ (bitset : Nat) (nodes : List (Node T)),
    count_ones bitset ≤ nodes.length → (∀ n ∈ nodes, NodeWF n) →
    NodeWF (NodeMut.into_nodeFold pairs bitset nodes)
  | [], _, bitset, nodes, hc, hn => by
    rw [NodeMut.into_nodeFold]
    exact NodeWF.more bitset nodes hc hn
  | (idx32, node_mut) :: rest, hp, bitset, nodes, hc, hn => by
    rw [NodeMut.into_nodeFold]
    cases hfreeze : node_mut.into_node with
    | none =>
      exact into_nodeFold_wf rest (fun p hmem => hp p (List.mem_cons_of_mem _ hmem))
        bitset nodes hc hn
    | some node =>
      apply into_nodeFold_wf rest (fun p hmem => hp p (List.mem_cons_of_mem _ hmem))
      · calc count_ones (Bitset.set bitset idx32) ≤ count_ones bitset + 1 :=
            count_ones_set_le bitset idx32
          _ ≤ nodes.length + 1 := by omega
          _ = (nodes ++ [node]).length := by simp
      · intro n hmem
        rcases List.mem_append.mp hmem with hl | hr
        · exact hn n hl
        · rw [List.mem_singleton.mp hr]
          exact hp (idx32, node_mut) (List.mem_cons_self _ _) node hfreeze

/-- The empty bitmap has no set bits. -/
theorem count_ones_zero : count_ones 0 = 0 := by decide

/-- Freezing a well-formed staging node yields a well-formed frozen node. -/
theorem into_node_wf {T : Type} {nm : NodeMut T} (h : NodeMutWF nm) :
    ∀ n, nm.into_node = some n → NodeWF n := by
  induction h with
  | empty =>
    intro n hn
    simp [NodeMut.into_node] at hn
  | imut node hnode =>
    intro n hn
    rw [NodeMut.into_node] at hn
    cases hn
    exact hnode
  | moreMut pairs hpairs ih =>
    intro n hn
    rw [NodeMut.into_node] at hn
    cases hn
    exact into_nodeFold_wf pairs (fun p hp => ih p hp) 0 ([] : List (Node T)) (by simp [count_ones_zero]) (by simp)

/-- One binary-search-and-recurse step of `insert` on a `MoreMut` node preserves
well-formedness, given that the recursion one level deeper does. -/
theorem insert_wf_moreMut {T : Type} (pairs : List (Nat × NodeMut T))
    (depth k : Nat) (v : T)
    (hwf : ∀ p ∈ pairs, NodeMutWF p.2)
    (hrec : ∀ p ∈ pairs, NodeMutWF ((p.2).insert (depth + 1) k v).2) :
    NodeMutWF ((NodeMut.moreMut pairs).insert depth k v).2 := by
  rw [NodeMut.insert]
  split
  · exact NodeMutWF.moreMut pairs hwf
  · split
    · split
      next kk sub hget =>
        apply NodeMutWF.moreMut
        intro p hp
        rcases List.mem_or_eq_of_mem_set hp with hmem | heqp
        · exact hwf p hmem
        · rw [heqp]
          exact hrec (kk, sub) (List.get?_mem hget)
      next hget =>
        exact NodeMutWF.moreMut pairs hwf
    · apply NodeMutWF.moreMut
      intro p hp
      rcases mem_vecInsert hp with heqp | hmem
      · rw [heqp]
        exact NodeMutWF.imut _ (NodeWF.one _ _)
      · exact hwf p hmem

/-- Inserting never breaks well-formedness; `N` bounds the remaining recursion
depth allowed by the `depth > MAX_DEPTH` guard. -/
theorem insert_wf_rank {T : Type} :
    ∀ (N depth : Nat), MAX_DEPTH + 2 - depth ≤ N →
    ∀ (nm : NodeMut T) (k : Nat) (v : T), NodeMutWF nm →
    NodeMutWF ((nm.insert depth k v)).2
  | 0, depth, hN, nm, k, v, hwf => by
    have hd : depth > MAX_DEPTH := by
      have : MAX_DEPTH = 2 := by decide
      omega
    rw [NodeMut.insert.eq_def]
    simp only [dif_pos hd]
    exact hwf
  | N + 1, depth, hN, nm, k, v, hwf => by
    by_cases hd : depth > MAX_DEPTH
    · rw [NodeMut.insert.eq_def]
      simp only [dif_pos hd]
      exact hwf
    · cases hwf with
      | empty =>
        rw [NodeMut.insert]
        simp only [dif_neg hd]
        exact NodeMutWF.imut _ (NodeWF.one _ _)
      | imut node hnode =>
        cases hnode with
        | one index value =>
          rw [NodeMut.insert]
          simp only [dif_neg hd]
          split
          · exact NodeMutWF.imut _ (NodeWF.one _ _)
          · split <;>
            · apply NodeMutWF.moreMut
              intro p hp
              simp only [List.mem_cons, List.mem_singleton] at hp
              rcases hp with h1 | h2 | h3
              · rw [h1]; exact NodeMutWF.imut _ (NodeWF.one _ _)
              · rw [h2]; exact NodeMutWF.imut _ (NodeWF.one _ _)
              · cases h3
        | more bitset nodes hcount hns =>
          rw [NodeMut.insert]
          simp only [dif_neg hd]
          apply insert_wf_moreMut
          · exact make_mut_wf hns
          · intro p hp
            exact insert_wf_rank N (depth + 1) (by omega) _ k v (make_mut_wf hns p hp)
      | moreMut pairs hpairs =>
        apply insert_wf_moreMut pairs depth k v hpairs
        intro p hp
        exact insert_wf_rank N (depth + 1) (by omega) _ k v (hpairs p hp)

/-- The collapse step preserves well-formedness of the produced node. -/
theorem removeCollapse_wf {T : Type} (step : Option T × List (Nat × NodeMut T))
    (hwf : ∀ p ∈ step.2, NodeMutWF p.2) :
    NodeMutWF (NodeMut.removeCollapse step).2 := by
  rw [NodeMut.removeCollapse]
  split
  · exact NodeMutWF.imut _ (NodeWF.one _ _)
  · exact NodeMutWF.moreMut _ hwf

/-- One binary-search-and-recurse step of `remove` on a `MoreMut` node preserves
well-formedness, given that the recursion one level deeper does. -/
theorem remove_wf_moreMut {T : Type} (pairs : List (Nat × NodeMut T))
    (depth k : Nat)
    (hwf : ∀ p ∈ pairs, NodeMutWF p.2)
    (hrec : ∀ p ∈ pairs, NodeMutWF ((p.2).remove (depth + 1) k).2) :
    NodeMutWF ((NodeMut.moreMut pairs).remove depth k).2 := by
  rw [NodeMut.remove]
  split
  · exact NodeMutWF.moreMut pairs hwf
  · apply removeCollapse_wf
    split
    · exact hwf
    · rename_i idx heq
      split
      next hget =>
        exact hwf
      next kk sub hget =>
        have hmemsub : (kk, sub) ∈ pairs := List.get?_mem hget
        have hset : ∀ p ∈ pairs.set idx (kk, (sub.remove (depth + 1) k).2),
            NodeMutWF p.2 := by
          intro p hp
          rcases List.mem_or_eq_of_mem_set hp with hmem | heqp
          · exact hwf p hmem
          · rw [heqp]
            exact hrec (kk, sub) hmemsub
        simp only []
        split
        · intro p hp
          exact hset p (List.eraseIdx_subset _ _ hp)
        · exact hset

/-- Removing never breaks well-formedness; `N` bounds the remaining recursion
depth allowed by the `depth > MAX_DEPTH` guard. -/
theorem remove_wf_rank {T : Type} :
    ∀ (N depth : Nat), MAX_DEPTH + 2 - depth ≤ N →
    ∀ (nm : NodeMut T) (k : Nat), NodeMutWF nm →
    NodeMutWF ((nm.remove depth k)).2
  | 0, depth, hN, nm, k, hwf => by
    have hd : depth > MAX_DEPTH := by
      have : MAX_DEPTH = 2 := by decide
      omega
    rw [NodeMut.remove.eq_def]
    simp only [dif_pos hd]
    exact hwf
  | N + 1, depth, hN, nm, k, hwf => by
    by_cases hd : depth > MAX_DEPTH
    · rw [NodeMut.remove.eq_def]
      simp only [dif_pos hd]
      exact hwf
    · cases hwf with
      | empty =>
        rw [NodeMut.remove]
        simp only [dif_neg hd]
        exact NodeMutWF.empty
      | imut node hnode =>
        cases hnode with
        | one index value =>
          rw [NodeMut.remove]
          simp only [dif_neg hd]
          split
          · exact NodeMutWF.empty
          · exact NodeMutWF.imut _ (NodeWF.one _ _)
        | more bitset nodes hcount hns =>
          rw [NodeMut.remove]
          simp only [dif_neg hd]
          split
          · apply remove_wf_moreMut
            · exact make_mut_wf hns
            · intro p hp
              exact remove_wf_rank N (depth + 1) (by omega) _ k (make_mut_wf hns p hp)
          · exact NodeMutWF.imut _ (NodeWF.more bitset nodes hcount hns)
      | moreMut pairs hpairs =>
        apply remove_wf_moreMut pairs depth k hpairs
        intro p hp
        exact remove_wf_rank N (depth + 1) (by omega) _ k (hpairs p hp)

/-- A single staged insert preserves staging well-formedness. -/
theorem insert_wf {T : Type} {nm : NodeMut T} (depth k : Nat) (v : T)
    (hwf : NodeMutWF nm) : NodeMutWF ((nm.insert depth k v)).2 :=
  insert_wf_rank (MAX_DEPTH + 2 - depth) depth (Nat.le_refl _) nm k v hwf

/-- A single staged remove preserves staging well-formedness. -/
theorem remove_wf {T : Type} {nm : NodeMut T} (depth k : Nat)
    (hwf : NodeMutWF nm) : NodeMutWF ((nm.remove depth k)).2 :=
  remove_wf_rank (MAX_DEPTH + 2 - depth) depth (Nat.le_refl _) nm k hwf

/-- Thawing a well-formed trie gives a well-formed staging root. -/
theorem to_mut_wf {T : Type} {t : Trie T} (hwf : TrieWF t) :
    NodeMutWF (t.to_mut).root := by
  rw [Trie.to_mut]
  cases ht : t.root with
  | none => exact NodeMutWF.empty
  | some n => exact NodeMutWF.imut n (hwf n ht)

/-- Freezing a well-formed staging map gives a well-formed trie. -/
theorem into_trie_wf {T : Type} {tm : TrieMut T} (hwf : NodeMutWF tm.root) :
    TrieWF tm.into_trie := by
  intro n hn
  rw [TrieMut.into_trie] at hn
  exact into_node_wf hwf n hn

/-- `Trie::update` preserves trie well-formedness. -/
theorem update_wf {T : Type} {t : Trie T} (index : Nat) (value : T)
    (hwf : TrieWF t) : TrieWF (t.update index value) := by
  rw [Trie.update]
  exact into_trie_wf (insert_wf 0 index value (to_mut_wf hwf))

/-- `Trie::remove` preserves trie well-formedness. -/
theorem trie_remove_wf {T : Type} {t : Trie T} (index : Nat)
    (hwf : TrieWF t) : TrieWF (t.remove index) := by
  rw [Trie.remove]
  exact into_trie_wf (remove_wf 0 index (to_mut_wf hwf))

/-- Folding staged inserts over a list preserves staging well-formedness. -/
theorem foldl_insert_wf {T : Type} (entries : List (Nat × T)) :
    ∀ (tm : TrieMut T), NodeMutWF tm.root →
    NodeMutWF ((entries.foldl (fun tm p => (tm.insert p.1 p.2).2) tm)).root := by
  induction entries with
  | nil => intro tm h; exact h
  | cons e rest ih =>
    intro tm h
    exact ih _ (insert_wf 0 e.1 e.2 h)

/-- Folding staged removes over a list preserves staging well-formedness. -/
theorem foldl_remove_wf {T : Type} (indices : List Nat) :
    ∀ (tm : TrieMut T), NodeMutWF tm.root →
    NodeMutWF ((indices.foldl (fun tm i => (tm.remove i).2) tm)).root := by
  induction indices with
  | nil => intro tm h; exact h
  | cons i rest ih =>
    intro tm h
    exact ih _ (remove_wf 0 i h)

/-- `Trie::update_all` preserves trie well-formedness. -/
theorem update_all_wf {T : Type} {t : Trie T} (entries : List (Nat × T))
    (hwf : TrieWF t) : TrieWF (t.update_all entries) := by
  cases entries with
  | nil => exact hwf
  | cons e rest =>
    rw [Trie.update_all]
    exact into_trie_wf (foldl_insert_wf rest _ (insert_wf 0 e.1 e.2 (to_mut_wf hwf)))

/-- `Trie::remove_all` preserves trie well-formedness. -/
theorem remove_all_wf {T : Type} {t : Trie T} (indices : List Nat)
    (hwf : TrieWF t) : TrieWF (t.remove_all indices) := by
  cases indices with
  | nil => exact hwf
  | cons i rest =>
    rw [Trie.remove_all]
    exact into_trie_wf (foldl_remove_wf rest _ (remove_wf 0 i (to_mut_wf hwf)))

/-- Every reachable trie is well formed. -/
theorem reachable_wf {T : Type} {t : Trie T} (h : Reachable t) : TrieWF t := by
  induction h with
  | new =>
    intro n hn
    simp [Trie.new] at hn
  | update index value _ ih => exact update_wf index value ih
  | update_all entries _ ih => exact update_all_wf entries ih
  | remove index _ ih => exact trie_remove_wf index ih
  | remove_all indices _ ih => exact remove_all_wf indices ih
  | commit edits _ ih =>
    apply into_trie_wf
    have : ∀ (es : List (Edit T)) (tm : TrieMut T), NodeMutWF tm.root →
        NodeMutWF ((es.foldl TrieMut.applyEdit tm)).root := by
      intro es
      induction es with
      | nil => intro tm h; exact h
      | cons e rest ihe =>
        intro tm h
        apply ihe
        cases e with
        | ins index value => exact insert_wf 0 index value h
        | del index => exact remove_wf 0 index h
    exact this edits _ (to_mut_wf ih)

/-- Well-formedness descends to every subtree. -/
theorem wf_of_subtree {T : Type} {s n : Node T} (hwf : NodeWF n)
    (hsub : Subtree s n) : NodeWF s := by
  induction hsub with
  | refl => exact hwf
  | child hc _ ih =>
    cases hwf with
    | more bitset nodes hcount hns => exact ih (hns _ hc)

/-- Evaluation helper: inserting keys 0 then 1 into the empty trie yields the
two-leaf root with bitmap `0b11` and cached length 2. -/
theorem trie_two_eval : ((Trie.new.update 0 "a").update 1 "b")
    = ⟨some (Node.more 3 [Node.one 0 "a", Node.one 1 "b"]), 2⟩ := by
  simp [Trie.new, Trie.update, Trie.to_mut, TrieMut.insert, TrieMut.into_trie,
    NodeMut.insert, NodeMut.into_node, NodeMut.into_nodeFold,
    Node.len, Node.lenList, MAX_DEPTH, Index32.convert, Bitset.set,
    rustBinarySearch, bsGo, vecInsert]

/-- Evaluation helper: inserting keys 1 then 0 into the empty trie yields the same
two-leaf root (the leaf split swaps the pairs because `1 > 0` on the full keys). -/
theorem trie_two_rev_eval : ((Trie.new.update 1 "b").update 0 "a")
    = ⟨some (Node.more 3 [Node.one 0 "a", Node.one 1 "b"]), 2⟩ := by
  simp [Trie.new, Trie.update, Trie.to_mut, TrieMut.insert, TrieMut.into_trie,
    NodeMut.insert, NodeMut.into_node, NodeMut.into_nodeFold,
    Node.len, Node.lenList, MAX_DEPTH, Index32.convert, Bitset.set,
    rustBinarySearch, bsGo, vecInsert]

/-- Evaluation helper: thawing the two-leaf root pairs both children with digit 30
(the `leading_zeros` of bitmap `0b11`), because the bitset iterator of the source
never advances and never yields the actual set bits 0 and 1. -/
theorem make_mut_two_eval : make_mut 3 [Node.one 0 "a", Node.one 1 "b"] =
    [(30, NodeMut.imut (Node.one 0 "a")), (30, NodeMut.imut (Node.one 1 "b"))] := by
  simp [make_mut, show leading_zeros 3 = 30 from by decide]

/-- C1: the round trip `get(update(m, k, v), k) = Some(v)` fails on the map
`update(new, 1, "b")` at `k = 0`: the rank bug in `packed_index` steers the lookup
into the wrong child, so the lookup returns `some "b"` instead of `some "a"`; and
`MAX_DEPTH` is 2 (byte-width derivation), not the 13 levels needed to cover the
64-bit key space. -/
theorem C1_round_trip_fails :
    ((Trie.new.update 1 "b").update 0 "a").get 0 = some "b" ∧ MAX_DEPTH = 2 := by
  constructor
  · rw [trie_two_rev_eval]
    simp [Trie.get, Node.get, Node.getList,
      show Bitset.packed_index 3 (0 % 32) = some 1 from by decide]
  · decide

/-- C2: `packed_index` on bitset `0b11` at digit 0 returns `some 1`, but the count
of set bits strictly below digit 0, `popcount(b &&& ((1 <<< 0) - 1))`, is 0: the
mask `!(W1 << (index + 1) - 1)` parses as `!(W1 << index)` and counts every other
set bit, not the lower ones. -/
theorem C2_rank_wrong :
    Bitset.packed_index 3 0 = some 1 ∧ count_ones (3 &&& (1 <<< 0 - 1)) = 0 := by
  constructor
  · decide
  · decide

/-- C3: non-interference fails: after inserting only key 0 into the empty map,
looking up the distinct key 1 returns `some "a"` (the empty map returns `none`),
because `Node::get` never compares the queried key against the key stored in a
leaf. -/
theorem C3_non_interference_fails :
    (Trie.new.update 0 "a").get 1 = some "a" ∧ (Trie.new : Trie String).get 1 = none := by
  constructor
  · simp [Trie.new, Trie.update, Trie.to_mut, TrieMut.insert, TrieMut.into_trie, Trie.get,
      NodeMut.insert, NodeMut.into_node, Node.get, Node.len, MAX_DEPTH]
  · simp [Trie.new, Trie.get]

/-- C4: on the bitset with exactly bit 0 set, one iterator step yields index 31,
which is not a set bit (`testBit 1 31 = false`), and leaves the iterator state
unchanged, so the iteration never yields digit 0 and never terminates. -/
theorem C4_iterator_broken :
    BitsetIter.next 1 = some (31, 1) ∧ Nat.testBit 1 31 = false := by
  constructor
  · decide
  · decide

/-- C5: the strict-ascending-digit invariant is violated by both write paths:
thawing the two-leaf root gives the pair digits `[30, 30]` (duplicate, and 30 is
not even a set bit), and splitting the leaf of key 1 against new key 32 gives the
pair digits `[1, 0]` (descending, because the source orders the split by full key,
not by digit). -/
theorem C5_ordering_broken :
    make_mut 3 [Node.one 0 "a", Node.one 1 "b"] =
      [(30, NodeMut.imut (Node.one 0 "a")), (30, NodeMut.imut (Node.one 1 "b"))] ∧
    ((NodeMut.imut (Node.one 1 "b")).insert 0 32 "c").2 =
      NodeMut.moreMut [(1, NodeMut.imut (Node.one 1 "b")),
        (0, NodeMut.imut (Node.one 32 "c"))] ∧
    ¬ List.Pairwise (fun a b => a < b) [(30 : Nat), 30] ∧
    ¬ List.Pairwise (fun a b => a < b) [(1 : Nat), 0] := by
  refine ⟨make_mut_two_eval, ?_, by decide, by decide⟩
  simp [NodeMut.insert, MAX_DEPTH,
    show Index32.convert 1 0 = 1 from by decide,
    show Index32.convert 32 0 = 0 from by decide]

/-- C6: removing key 1 from the map `{0: "a", 1: "b"}` does not collapse to the
leaf of key 0: the thaw garbles the digits to 30, the binary search misses key 1,
nothing is removed, and the result is an `Internal` root with bitmap bit 30, length
2, and a lookup of key 0 that returns `none` instead of `some "a"`. -/
theorem C6_collapse_fails :
    (((Trie.new.update 0 "a").update 1 "b").remove 1).len = 2 ∧
    (((Trie.new.update 0 "a").update 1 "b").remove 1).get 0 = none ∧
    (((Trie.new.update 0 "a").update 1 "b").remove 1).root =
      some (Node.more 1073741824 [Node.one 0 "a", Node.one 1 "b"]) := by
  rw [trie_two_eval]
  refine ⟨?_, ?_, ?_⟩ <;>
  simp [Trie.remove, Trie.to_mut, TrieMut.remove, TrieMut.into_trie, Trie.get, Trie.len,
    NodeMut.remove, NodeMut.removeCollapse, NodeMut.into_node, NodeMut.into_nodeFold,
    Node.get, Node.getList, Node.len, Node.lenList, MAX_DEPTH,
    show Index32.convert 1 0 = 1 from by decide,
    show Bitset.get 3 1 = true from by decide,
    show Bitset.set 0 30 = 1073741824 from by decide,
    show Bitset.set 1073741824 30 = 1073741824 from by decide,
    show Bitset.packed_index 1073741824 (0 % 32) = none from by decide,
    make_mut_two_eval, rustBinarySearch, bsGo]

/-- C7: on the map `{0: "a", 1: "b"}`, `next_empty` from start 0 returns `some 0`
even though key 0 is present (the claim requires `some 2`): the buggy rank sends
the scan into the leaf of key 1, which reports the foreign key 0 as free. -/
theorem C7_next_empty_fails :
    ((Trie.new.update 0 "a").update 1 "b").next_empty 0 = some 0 := by
  have hne : (Node.more 3 [Node.one 0 "a", Node.one 1 "b"]).next_empty 0 0
      = some (0 : Nat) := by
    rw [Node.next_empty]
    norm_num [MAX_DEPTH, show Index32.convert 0 0 = 0 from by decide,
      show Bitset.get 3 0 = true from by decide]
    rw [show (32 : Nat) = 31 + 1 from rfl]
    rw [Node.nextEmptyScan]
    simp only [show Index32.convert 0 0 = 0 from by decide,
      show Index32.maxWith 0 = 31 from by decide,
      show Bitset.packed_index 3 0 = some 1 from by decide]
    norm_num
    rw [Node.nextEmptyChild, Node.nextEmptyChild, Node.next_empty]
    norm_num [MAX_DEPTH]
  rw [trie_two_eval]
  simp [Trie.next_empty, hne, Option.orElse]

/-- C8: re-updating the already-present key 0 in the map `{0: "a", 1: "b"}` raises
the length from 2 to 3: the thaw garbles the digits, the binary search misses the
existing leaf of key 0, and a duplicate leaf for key 0 is inserted. -/
theorem C8_length_accounting_fails :
    (((Trie.new.update 0 "a").update 1 "b").update 0 "c").len = 3 ∧
    ((Trie.new.update 0 "a").update 1 "b").len = 2 := by
  rw [trie_two_eval]
  constructor
  · simp [Trie.update, Trie.to_mut, TrieMut.insert, TrieMut.into_trie, Trie.len,
      NodeMut.insert, NodeMut.into_node, NodeMut.into_nodeFold,
      Node.len, Node.lenList, MAX_DEPTH,
      show Index32.convert 0 0 = 0 from by decide,
      show Bitset.set 0 0 = 1 from by decide,
      show Bitset.set 1 30 = 1073741825 from by decide,
      show Bitset.set 1073741825 30 = 1073741825 from by decide,
      make_mut_two_eval, rustBinarySearch, bsGo, vecInsert]
  · simp [Trie.len]

/-- C9: the batched `update_all` of `[(0, a), (1, b), (2, c)]` and the left fold of
single `update`s over the same list disagree at key 0: the batch returns `some "c"`
(rank bug inside one staging session), the fold returns `none` (thaw garbling
between sessions loses the digits), so batch and sequential application are not
observationally equal. -/
theorem C9_batch_fold_disagree :
    (Trie.new.update_all [(0, "a"), (1, "b"), (2, "c")]).get 0 = some "c" ∧
    (([((0 : Nat), "a"), (1, "b"), (2, "c")].foldl
      (fun (m : Trie String) p => m.update p.1 p.2) Trie.new)).get 0 = none := by
  constructor
  · simp [Trie.new, Trie.update_all, Trie.to_mut, TrieMut.insert, TrieMut.into_trie,
      Trie.get, NodeMut.insert, NodeMut.into_node, NodeMut.into_nodeFold,
      Node.get, Node.getList, Node.len, Node.lenList, MAX_DEPTH,
      show Index32.convert 0 0 = 0 from by decide,
      show Index32.convert 1 0 = 1 from by decide,
      show Index32.convert 2 0 = 2 from by decide,
      show Bitset.set 0 0 = 1 from by decide,
      show Bitset.set 1 1 = 3 from by decide,
      show Bitset.set 3 2 = 7 from by decide,
      show Bitset.packed_index 7 (0 % 32) = some 2 from by decide,
      rustBinarySearch, bsGo, vecInsert]
  · rw [show ([((0 : Nat), "a"), (1, "b"), (2, "c")].foldl
        (fun (m : Trie String) p => m.update p.1 p.2) Trie.new)
        = ((Trie.new.update 0 "a").update 1 "b").update 2 "c" from rfl]
    rw [trie_two_eval]
    simp [Trie.update, Trie.to_mut, TrieMut.insert, TrieMut.into_trie, Trie.get,
      NodeMut.insert, NodeMut.into_node, NodeMut.into_nodeFold,
      Node.get, Node.getList, Node.len, Node.lenList, MAX_DEPTH,
      show Index32.convert 2 0 = 2 from by decide,
      show Bitset.set 0 2 = 4 from by decide,
      show Bitset.set 4 30 = 1073741828 from by decide,
      show Bitset.set 1073741828 30 = 1073741828 from by decide,
      show Bitset.packed_index 1073741828 (0 % 32) = none from by decide,
      make_mut_two_eval, rustBinarySearch, bsGo, vecInsert]

/-- C10: on every trie reachable from `Trie::new` by the public operations
(including arbitrary staged batches), whenever `packed_index` answers `some i` on
the bitmap of any `More` node of the tree, `i` is strictly below the length of that
node's child array, so the dense child indexing of `get` and `next_empty` stays in
bounds. -/
theorem C10_packed_index_in_bounds {T : Type} (t : Trie T) (hreach : Reachable t)
    (root : Node T) (hroot : t.root = some root)
    (bitset : Nat) (nodes : List (Node T)) (hsub : Subtree (.more bitset nodes) root)
    (d i : Nat) (hpi : Bitset.packed_index bitset d = some i) : i < nodes.length := by
  have hwf : NodeWF root := reachable_wf hreach root hroot
  have hnode : NodeWF (Node.more bitset nodes) := wf_of_subtree hwf hsub
  cases hnode with
  | more bitset nodes hcount hns =>
    have := packed_index_lt_count hpi
    omega

/-- Witness for C10 at the concrete reachable map `{0: "a", 1: "b"}` (root bitmap
`0b11`, two children) and digit 0, where `packed_index` answers `some 1 < 2`. -/
theorem C10_packed_index_in_bounds_w :
    (1 : Nat) < ([Node.one 0 "a", Node.one 1 "b"] : List (Node String)).length :=
  C10_packed_index_in_bounds ((Trie.new.update 0 "a").update 1 "b")
    (Reachable.update 1 "b" (Reachable.update 0 "a" Reachable.new))
    (Node.more 3 [Node.one 0 "a", Node.one 1 "b"])
    (by rw [trie_two_eval])
    3 [Node.one 0 "a", Node.one 1 "b"]
    (Subtree.refl _)
    0 1 (by decide)
